import Mathlib

/-!
Shallow embedding of `src/data_cleaning.py` (the Row Validation & Repair
Engine): the cell/row/table data model, the numeric-coercion step
(`fix_numeric_values`), the missing-value step (`handle_missing_values`),
and the validation/repair engine (`remove_invalid_rows`, called
`validate_and_repair` in the specification).

A cell is numeric, text, or null (pandas `NaN`/`pd.NA` is the null marker:
`notna` is false on it and every numeric comparison with it is false, which
is exactly how `Value.null` behaves below).  A row is an association list
from column name to cell value; a table carries its column list plus its
rows.  Machine floats are modelled as rationals.
-/

namespace DataCleaning

inductive Value where
  | num (x : ℚ)
  | text (s : String)
  | null
deriving DecidableEq

abbrev Row := List (String × Value)

structure Table where
  cols : List String
  rows : List Row
deriving DecidableEq

/-- The two load-bearing numeric columns of the engine. -/
def pqCol (c : String) : Bool := c = "price" || c = "qty"

/-- Digit string to a natural number (left fold, base 10). -/
def digitsVal (cs : List Char) : Nat :=
  cs.foldl (fun n c => 10 * n + (c.toNat - 48)) 0

def isDigits (cs : List Char) : Bool := cs.all Char.isDigit

/-- Unsigned decimal numeral: digits with an optional single decimal point;
at least one digit overall.  Models the numerals `pd.to_numeric` accepts. -/
def parseUnsigned (cs : List Char) : Option ℚ :=
  match cs.splitOn '.' with
  | [ip] =>
      if !ip.isEmpty && isDigits ip then some ((digitsVal ip : ℚ)) else none
  | [ip, fp] =>
      if (!ip.isEmpty || !fp.isEmpty) && isDigits ip && isDigits fp then
        some ((digitsVal ip : ℚ) + (digitsVal fp : ℚ) / ((10 : ℚ) ^ fp.length))
      else none
  | _ => none

/-- Parse a cell's text as a number, allowing a leading sign.  Returns
`none` on anything unparseable, e.g. the `"-"` sentinel or arbitrary text.
Models the parse underlying `pd.to_numeric(errors="coerce")`. -/
def parseNum (s : String) : Option ℚ :=
  match s.toList with
  | [] => none
  | '-' :: rest => (parseUnsigned rest).map (fun q => -q)
  | '+' :: rest => parseUnsigned rest
  | cs => parseUnsigned cs

/-- `pd.to_numeric(errors="coerce")` on one cell: numbers pass through,
text is parsed or degraded to null, null stays null.  Never fails. -/
def coerceCell (v : Value) : Value :=
  match v with
  | .num x => .num x
  | .text s => match parseNum s with | some x => .num x | none => .null
  | .null => .null

/-- `df["price"].replace("-", pd.NA)` on one cell. -/
def replaceDash (v : Value) : Value := if v = .text "-" then .null else v

/-- One cell of `fix_numeric_values`: on the `price`/`qty` columns, replace
the `"-"` sentinel by null then coerce to numeric; other columns untouched. -/
def fixCell (c : String) (v : Value) : Value :=
  if pqCol c then coerceCell (replaceDash v) else v

/-- `fix_numeric_values` (lines 82-97): convert `price` and `qty` to
numeric and fix `"-"` entries; row count is unchanged. -/
def fix_numeric_values (t : Table) : Table :=
  ⟨t.cols, t.rows.map (fun r => r.map (fun cv => (cv.1, fixCell cv.1 cv.2)))⟩

/-- First cell of the row under column `c`, null if the row has no such
cell (pandas rows are rectangular, so a present column always has a cell). -/
def getVal (r : Row) (c : String) : Value :=
  match r with
  | [] => .null
  | cv :: rest => if cv.1 = c then cv.2 else getVal rest c

def hasKey (r : Row) (c : String) : Bool :=
  match r with
  | [] => false
  | cv :: rest => decide (cv.1 = c) || hasKey rest c

/-- Overwrite the first cell under column `c` (no-op when absent). -/
def setVal (r : Row) (c : String) (v : Value) : Row :=
  match r with
  | [] => []
  | cv :: rest => if cv.1 = c then (c, v) :: rest else cv :: setVal rest c v

def isNullV (v : Value) : Bool := match v with | .null => true | _ => false

/-- `handle_missing_values` (lines 103-108): drop every row with a null in
whichever of `price`, `qty`, `date_sold` exist as columns. -/
def handle_missing_values (t : Table) : Table :=
  let required := (["price", "qty", "date_sold"]).filter (fun c => decide (c ∈ t.cols))
  ⟨t.cols, t.rows.filter (fun r => required.all (fun c => ! isNullV (getVal r c)))⟩

/-- The coercion at lines 143-144 of `remove_invalid_rows`, applied to one
row: `pd.to_numeric(..., errors="coerce")` on the `price`/`qty` cells. -/
def coerceRow (r : Row) : Row :=
  r.map (fun cv => if pqCol cv.1 then (cv.1, coerceCell cv.2) else cv)

/-- The swap mask of line 148: both cells numeric (`notna`), `price < 1`,
`qty >= 100` and `qty > price * 10`. -/
def swapCond (r : Row) : Bool :=
  match getVal r "price", getVal r "qty" with
  | .num p, .num q => decide (p < 1 ∧ 100 ≤ q ∧ p * 10 < q)
  | _, _ => false

/-- Line 152: on a masked row, exchange the `price` and `qty` values. -/
def swapStep (r : Row) : Row :=
  if swapCond r then
    setVal (setVal r "price" (getVal r "qty")) "qty" (getVal r "price")
  else r

def isPosNum (v : Value) : Bool :=
  match v with | .num x => decide (0 < x) | _ => false

def isBigNum (v : Value) : Bool :=
  match v with | .num x => decide (1000000 < x) | _ => false

/-- `mask_valid` of line 156: `price > 0` and `qty > 0` (false on null). -/
def posCond (r : Row) : Bool := isPosNum (getVal r "price") && isPosNum (getVal r "qty")

/-- `outlier_mask` of line 161: `price > 1_000_000` or `qty > 1_000_000`. -/
def outlierCond (r : Row) : Bool := isBigNum (getVal r "price") || isBigNum (getVal r "qty")

/-- `df.drop_duplicates()` (line 169): drop every row already seen,
keeping the first occurrence of each value. -/
def dedupAux (seen : List Row) : List Row → List Row
  | [] => []
  | r :: rs => if r ∈ seen then dedupAux seen rs else r :: dedupAux (r :: seen) rs

def dropDuplicates (rs : List Row) : List Row := dedupAux [] rs

/-- The counts printed by `remove_invalid_rows` (its report). -/
structure Report where
  initial_count : Nat
  swapped : Nat
  removed_missing_or_nonpositive : Nat
  removed_outliers : Nat
  duplicates_removed : Nat
  final_count : Nat
deriving DecidableEq

/-- Lines 143-144: the table's rows with `price`/`qty` coerced to numeric. -/
def coercedRows (t : Table) : List Row := t.rows.map coerceRow

/-- Line 152: the rows after the swap repair. -/
def swappedRows (t : Table) : List Row := (coercedRows t).map swapStep

/-- Line 158: the rows surviving the missing/non-positive filter. -/
def positiveRows (t : Table) : List Row := (swappedRows t).filter posCond

/-- Line 164: the rows surviving the outlier filter. -/
def inlierRows (t : Table) : List Row :=
  (positiveRows t).filter (fun r => ! outlierCond r)

/-- Line 169: the rows surviving duplicate elimination. -/
def finalRows (t : Table) : List Row := dropDuplicates (inlierRows t)

/-- The body of `remove_invalid_rows` after its two precondition checks
(lines 135-177): coerce `price`/`qty`, apply the swap heuristic, drop
missing/non-positive rows, drop outliers, drop duplicates, and gather the
counts of the summary (`swapped` is the mask count of line 149,
`removed_missing_or_nonpositive` the inverted-mask count of line 157,
`removed_outliers` the mask count of line 162, `duplicates_removed` the
difference of line 170). -/
def cleanTable (t : Table) : Table × Report :=
  (⟨t.cols, finalRows t⟩,
   ⟨t.rows.length,
    ((coercedRows t).filter swapCond).length,
    ((swappedRows t).filter (fun r => ! posCond r)).length,
    ((positiveRows t).filter outlierCond).length,
    (inlierRows t).length - (finalRows t).length,
    (finalRows t).length⟩)

/-- The two fatal errors of `remove_invalid_rows`: `TypeError` when the
input is not a DataFrame at all (the spec's `InvalidInputError`), and
`KeyError` when `price`/`qty` are not both present (the spec's
`SchemaError`). -/
inductive CleanError where
  | invalidInput
  | schemaError
deriving DecidableEq

/-- `remove_invalid_rows` (lines 118-179).  `none` models an input that is
not a DataFrame (line 132's `isinstance` check); the column check is
line 139. -/
def remove_invalid_rows (input : Option Table) : Except CleanError (Table × Report) :=
  match input with
  | none => .error .invalidInput
  | some t =>
      if "price" ∈ t.cols ∧ "qty" ∈ t.cols then .ok (cleanTable t)
      else .error .schemaError

/-- The specification's name for the engine. -/
def validate_and_repair : Option Table → Except CleanError (Table × Report) :=
  remove_invalid_rows

instance exceptDecEq {ε α : Type} [DecidableEq ε] [DecidableEq α] :
    DecidableEq (Except ε α) := fun a b =>
  match a, b with
  | .error e, .error f =>
      if h : e = f then .isTrue (by rw [h]) else .isFalse (by intro hh; cases hh; exact h rfl)
  | .error _, .ok _ => .isFalse (by intro hh; cases hh)
  | .ok _, .error _ => .isFalse (by intro hh; cases hh)
  | .ok x, .ok y =>
      if h : x = y then .isTrue (by rw [h]) else .isFalse (by intro hh; cases hh; exact h rfl)

/-- The named counts the engine's prints carry, in print order: the
conditional swap message (line 153), the conditional outlier message
(line 165), then the five fields of the unconditional summary
(lines 173-177). -/
def printedReport (rep : Report) : List (String × Nat) :=
  (if rep.swapped ≠ 0 then [("swapped", rep.swapped)] else []) ++
  (if rep.removed_outliers ≠ 0 then [("removed_outliers", rep.removed_outliers)] else []) ++
  [("initial_count", rep.initial_count), ("swapped", rep.swapped),
   ("removed_missing_or_nonpositive", rep.removed_missing_or_nonpositive),
   ("duplicates_removed", rep.duplicates_removed),
   ("final_count", rep.final_count)]

/-- Two cells agree in column name, and in value as soon as the column is
not one of `price`/`qty` (the frame of the engine's repairs). -/
def offPQAgrees (a b : String × Value) : Prop :=
  a.1 = b.1 ∧ (pqCol a.1 = false → a.2 = b.2)

/-! ### Helper lemmas -/

theorem hasKey_of_getVal_ne_null {r : Row} {c : String} (h : getVal r c ≠ .null) :
    hasKey r c = true := by
  induction r with
  | nil => simp [getVal] at h
  | cons cv rest ih =>
      by_cases hc : cv.1 = c
      · simp [hasKey, hc]
      · simp only [getVal, hc, if_false] at h
        simp [hasKey, hc, ih h]

theorem getVal_setVal_self {r : Row} {c : String} (v : Value) (h : hasKey r c = true) :
    getVal (setVal r c v) c = v := by
  induction r with
  | nil => simp [hasKey] at h
  | cons cv rest ih =>
      by_cases hc : cv.1 = c
      · simp [setVal, hc, getVal]
      · simp only [hasKey, hc, decide_False, Bool.false_or] at h
        simp [setVal, hc, getVal, ih h]

theorem getVal_setVal_ne {r : Row} {c c' : String} (v : Value) (h : c ≠ c') :
    getVal (setVal r c v) c' = getVal r c' := by
  induction r with
  | nil => simp [setVal]
  | cons cv rest ih =>
      by_cases hc : cv.1 = c
      · simp [setVal, hc, getVal, h, hc ▸ h]
      · simp [setVal, hc, getVal, ih]

theorem hasKey_setVal (r : Row) (c c' : String) (v : Value) :
    hasKey (setVal r c v) c' = hasKey r c' := by
  induction r with
  | nil => simp [setVal]
  | cons cv rest ih =>
      by_cases hc : cv.1 = c
      · simp [setVal, hc, hasKey]
      · simp [setVal, hc, hasKey, ih]

theorem fst_coerceRowCell (cv : String × Value) :
    (if pqCol cv.1 then (cv.1, coerceCell cv.2) else cv).1 = cv.1 := by
  by_cases hp : pqCol cv.1 <;> simp [hp]

theorem getVal_coerceRow (r : Row) (c : String) :
    getVal (coerceRow r) c = if pqCol c then coerceCell (getVal r c) else getVal r c := by
  induction r with
  | nil => cases h : pqCol c <;> simp [coerceRow, getVal, h, coerceCell]
  | cons cv rest ih =>
      simp only [coerceRow, List.map_cons]
      by_cases hc : cv.1 = c
      · cases h : pqCol c <;>
          simp [getVal, fst_coerceRowCell, hc, hc ▸ h, h]
      · simp only [getVal, fst_coerceRowCell, hc, if_false]
        exact ih

theorem coerceCell_coerceCell (v : Value) : coerceCell (coerceCell v) = coerceCell v := by
  cases v with
  | num x => rfl
  | null => rfl
  | text s => cases h : parseNum s <;> simp [coerceCell, h]

theorem coerceRow_coerceRow (r : Row) : coerceRow (coerceRow r) = coerceRow r := by
  unfold coerceRow
  rw [List.map_map]
  apply List.map_congr_left
  intro cv _
  by_cases hp : pqCol cv.1
  · simp [hp, coerceCell_coerceCell]
  · simp [hp]

theorem coerceRow_setVal (r : Row) (c : String) (v : Value) :
    coerceRow (setVal r c v) =
      setVal (coerceRow r) c (if pqCol c then coerceCell v else v) := by
  induction r with
  | nil => simp [setVal, coerceRow]
  | cons cv rest ih =>
      by_cases hc : cv.1 = c
      · cases hp : pqCol c <;>
          simp [setVal, hc, coerceRow, hc ▸ hp, hp]
      · cases hp : pqCol cv.1 <;>
          simp [setVal, hc, coerceRow, hp] <;>
          simpa [coerceRow] using ih

theorem length_filter_not (l : List Row) (p : Row → Bool) :
    (l.filter p).length + (l.filter (fun a => ! p a)).length = l.length :=
  (List.length_eq_length_filter_add p).symm

/-! Facts about the swap heuristic. -/

theorem swapCond_num {r : Row} {p q : ℚ} (hp : getVal r "price" = .num p)
    (hq : getVal r "qty" = .num q) :
    swapCond r = decide (p < 1 ∧ 100 ≤ q ∧ p * 10 < q) := by
  simp [swapCond, hp, hq]

theorem swapStep_of_not_cond {r : Row} (h : swapCond r = false) : swapStep r = r := by
  simp [swapStep, h]

theorem getVal_swapStep_of_cond {r : Row} {p q : ℚ} (hp : getVal r "price" = .num p)
    (hq : getVal r "qty" = .num q) (h : swapCond r = true) :
    getVal (swapStep r) "price" = .num q ∧ getVal (swapStep r) "qty" = .num p := by
  have hkp : hasKey r "price" = true := hasKey_of_getVal_ne_null (by simp [hp])
  have hkq : hasKey r "qty" = true := hasKey_of_getVal_ne_null (by simp [hq])
  have hne : ("price" : String) ≠ "qty" := by decide
  constructor
  · rw [swapStep, if_pos h, getVal_setVal_ne _ (fun hh => hne hh.symm),
      getVal_setVal_self _ hkp, hq]
  · rw [swapStep, if_pos h,
      getVal_setVal_self _ (by rw [hasKey_setVal]; exact hkq), hp]

theorem swapCond_swapStep (r : Row) : swapCond (swapStep r) = false := by
  cases h : swapCond r with
  | false => rw [swapStep_of_not_cond h, h]
  | true =>
      have hex : ∃ p q : ℚ, getVal r "price" = .num p ∧ getVal r "qty" = .num q := by
        unfold swapCond at h
        cases hp : getVal r "price" <;> cases hq : getVal r "qty" <;>
          simp [hp, hq] at h <;> exact ⟨_, _, rfl, rfl⟩
      obtain ⟨p, q, hp, hq⟩ := hex
      have hcond : p < 1 ∧ 100 ≤ q ∧ p * 10 < q := by
        have := swapCond_num hp hq
        rw [h] at this
        exact of_decide_eq_true this.symm
      obtain ⟨hgp, hgq⟩ := getVal_swapStep_of_cond hp hq h
      rw [swapCond_num hgp hgq]
      simp only [decide_eq_false_iff_not]
      intro hcon
      have : (1 : ℚ) ≤ q := le_trans (by norm_num) hcond.2.1
      exact absurd hcon.1 (not_lt.mpr this)

theorem coerceRow_swapStep {r : Row} (h : coerceRow r = r) :
    coerceRow (swapStep r) = swapStep r := by
  cases hc : swapCond r with
  | false => rw [swapStep_of_not_cond hc, h]
  | true =>
      have hex : ∃ p q : ℚ, getVal r "price" = .num p ∧ getVal r "qty" = .num q := by
        unfold swapCond at hc
        cases hp : getVal r "price" <;> cases hq : getVal r "qty" <;>
          simp [hp, hq] at hc <;> exact ⟨_, _, rfl, rfl⟩
      obtain ⟨p, q, hp, hq⟩ := hex
      rw [swapStep, if_pos hc, coerceRow_setVal, coerceRow_setVal, h, hp, hq]
      have h1 : pqCol "price" = true := by decide
      have h2 : pqCol "qty" = true := by decide
      simp [h1, h2, coerceCell]

/-! Facts about duplicate elimination (`drop_duplicates`, keep-first). -/

theorem mem_of_mem_dedupAux {seen l : List Row} {r : Row}
    (h : r ∈ dedupAux seen l) : r ∈ l := by
  induction l generalizing seen with
  | nil => simpa [dedupAux] using h
  | cons a rs ih =>
      by_cases ha : a ∈ seen
      · simp only [dedupAux, if_pos ha] at h
        exact List.mem_cons_of_mem _ (ih h)
      · simp only [dedupAux, if_neg ha, List.mem_cons] at h
        rcases h with h | h
        · exact h ▸ List.mem_cons_self a rs
        · exact List.mem_cons_of_mem _ (ih h)

theorem not_mem_seen_of_mem_dedupAux {seen l : List Row} {r : Row}
    (h : r ∈ dedupAux seen l) : r ∉ seen := by
  induction l generalizing seen with
  | nil => simp [dedupAux] at h
  | cons a rs ih =>
      by_cases ha : a ∈ seen
      · simp only [dedupAux, if_pos ha] at h
        exact ih h
      · simp only [dedupAux, if_neg ha, List.mem_cons] at h
        rcases h with h | h
        · exact h ▸ ha
        · exact fun hs => ih h (List.mem_cons_of_mem _ hs)

theorem nodup_dedupAux (seen l : List Row) : (dedupAux seen l).Nodup := by
  induction l generalizing seen with
  | nil => simp [dedupAux]
  | cons a rs ih =>
      by_cases ha : a ∈ seen
      · simp only [dedupAux, if_pos ha]
        exact ih seen
      · simp only [dedupAux, if_neg ha]
        refine List.nodup_cons.mpr ⟨?_, ih (a :: seen)⟩
        intro hmem
        exact not_mem_seen_of_mem_dedupAux hmem (List.mem_cons_self a seen)

theorem sublist_dedupAux (seen l : List Row) : List.Sublist (dedupAux seen l) l := by
  induction l generalizing seen with
  | nil => simp [dedupAux]
  | cons a rs ih =>
      by_cases ha : a ∈ seen
      · simp only [dedupAux, if_pos ha]
        exact List.Sublist.trans (ih seen) (List.sublist_cons_self a rs)
      · simp only [dedupAux, if_neg ha]
        exact List.Sublist.cons₂ a (ih (a :: seen))

theorem length_dedupAux_le (seen l : List Row) : (dedupAux seen l).length ≤ l.length :=
  (sublist_dedupAux seen l).length_le

theorem dedupAux_congr_seen {l : List Row} {s₁ s₂ : List Row}
    (h : ∀ x ∈ l, x ∈ s₁ ↔ x ∈ s₂) : dedupAux s₁ l = dedupAux s₂ l := by
  induction l generalizing s₁ s₂ with
  | nil => simp [dedupAux]
  | cons a rs ih =>
      have ha := h a (List.mem_cons_self a rs)
      by_cases h1 : a ∈ s₁
      · rw [dedupAux, if_pos h1, dedupAux, if_pos (ha.mp h1)]
        exact ih fun x hx => h x (List.mem_cons_of_mem _ hx)
      · rw [dedupAux, if_neg h1, dedupAux, if_neg (fun h2 => h1 (ha.mpr h2))]
        refine congrArg (a :: ·) (ih fun x hx => ?_)
        simp only [List.mem_cons]
        exact or_congr Iff.rfl (h x (List.mem_cons_of_mem _ hx))

theorem dedupAux_filter_of_mem_seen {seen l : List Row} {a : Row} (ha : a ∈ seen) :
    dedupAux seen l = dedupAux seen (l.filter (fun x => decide (x ≠ a))) := by
  induction l generalizing seen with
  | nil => simp [dedupAux]
  | cons b rs ih =>
      by_cases hb : b = a
      · subst hb
        rw [List.filter_cons_of_neg (by simp), dedupAux, if_pos ha]
        exact ih ha
      · rw [List.filter_cons_of_pos (by simpa using hb)]
        by_cases hbs : b ∈ seen
        · rw [dedupAux, if_pos hbs, dedupAux, if_pos hbs]
          exact ih ha
        · rw [dedupAux, if_neg hbs, dedupAux, if_neg hbs]
          exact congrArg (b :: ·) (ih (List.mem_cons_of_mem _ ha))

theorem dedupAux_eq_self {seen l : List Row} (hn : l.Nodup)
    (hs : ∀ x ∈ l, x ∉ seen) : dedupAux seen l = l := by
  induction l generalizing seen with
  | nil => simp [dedupAux]
  | cons a rs ih =>
      rw [dedupAux, if_neg (hs a (List.mem_cons_self a rs))]
      refine congrArg (a :: ·) (ih (List.nodup_cons.mp hn).2 fun x hx => ?_)
      simp only [List.mem_cons]
      rintro (h | h)
      · exact (List.nodup_cons.mp hn).1 (h ▸ hx)
      · exact hs x (List.mem_cons_of_mem _ hx) h

theorem dropDuplicates_cons (a : Row) (l : List Row) :
    dropDuplicates (a :: l) = a :: dropDuplicates (l.filter (fun x => decide (x ≠ a))) := by
  rw [dropDuplicates, dedupAux, if_neg (List.not_mem_nil a)]
  refine congrArg (a :: ·) ?_
  rw [dedupAux_filter_of_mem_seen (List.mem_cons_self a []), dropDuplicates]
  exact dedupAux_congr_seen fun x hx => by
    simp only [List.mem_filter, decide_eq_true_eq] at hx
    simp [hx.2]

theorem dropDuplicates_of_nodup {l : List Row} (h : l.Nodup) : dropDuplicates l = l :=
  dedupAux_eq_self h (by simp)

theorem map_eq_self_of {α : Type} {l : List α} {f : α → α} (h : ∀ x ∈ l, f x = x) :
    l.map f = l := by
  conv_rhs => rw [← List.map_id l]
  exact List.map_congr_left h

theorem remove_invalid_rows_ok_elim {t c : Table} {rep : Report}
    (h : remove_invalid_rows (some t) = .ok (c, rep)) :
    ("price" ∈ t.cols ∧ "qty" ∈ t.cols) ∧ c = (cleanTable t).1 ∧ rep = (cleanTable t).2 := by
  have h' : (if "price" ∈ t.cols ∧ "qty" ∈ t.cols then
      (Except.ok (cleanTable t) : Except CleanError (Table × Report))
    else .error .schemaError) = .ok (c, rep) := h
  by_cases hp : "price" ∈ t.cols ∧ "qty" ∈ t.cols
  · rw [if_pos hp] at h'
    have h2 := Except.ok.inj h'
    exact ⟨hp, by rw [h2], by rw [h2]⟩
  · rw [if_neg hp] at h'
    simp at h'

theorem mem_finalRows {t : Table} {r : Row} (h : r ∈ finalRows t) :
    r ∈ swappedRows t ∧ posCond r = true ∧ outlierCond r = false := by
  have h4 : r ∈ inlierRows t := mem_of_mem_dedupAux h
  have h3 := List.mem_filter.mp h4
  have h2 := List.mem_filter.mp h3.1
  exact ⟨h2.1, h2.2, by simpa using h3.2⟩

theorem isPosNum_iff {v : Value} : isPosNum v = true ↔ ∃ p : ℚ, v = .num p ∧ 0 < p := by
  cases v <;> simp [isPosNum]

theorem isBigNum_num_false {p : ℚ} (h : isBigNum (.num p) = false) : p ≤ 1000000 := by
  simpa [isBigNum, not_lt] using h

/-! ### The claims -/

/-- Claim C1: for every input table with `price` and `qty` columns, every
row of the engine's output has numeric, non-null `price` and `qty` with
`price > 0`, `qty > 0`, `price ≤ 1_000_000`, `qty ≤ 1_000_000`, and no two
retained rows are equal across all columns. -/
theorem engine_output_invariants (t c : Table) (rep : Report)
    (h : validate_and_repair (some t) = Except.ok (c, rep)) :
    (∀ r ∈ c.rows,
      (∃ p : ℚ, getVal r "price" = Value.num p ∧ 0 < p ∧ p ≤ 1000000) ∧
      (∃ q : ℚ, getVal r "qty" = Value.num q ∧ 0 < q ∧ q ≤ 1000000)) ∧
    c.rows.Nodup := by
  obtain ⟨hp, hc, hrep⟩ := remove_invalid_rows_ok_elim h
  have hrows : c.rows = finalRows t := by rw [hc]; rfl
  constructor
  · intro r hr
    rw [hrows] at hr
    obtain ⟨_, hpos, hout⟩ := mem_finalRows hr
    simp only [posCond, Bool.and_eq_true] at hpos
    obtain ⟨pp, hgp, hp0⟩ := isPosNum_iff.mp hpos.1
    obtain ⟨qq, hgq, hq0⟩ := isPosNum_iff.mp hpos.2
    simp only [outlierCond, Bool.or_eq_false_iff] at hout
    refine ⟨⟨pp, hgp, hp0, ?_⟩, ⟨qq, hgq, hq0, ?_⟩⟩
    · exact isBigNum_num_false (hgp ▸ hout.1)
    · exact isBigNum_num_false (hgq ▸ hout.2)
  · rw [hrows]
    exact nodup_dedupAux [] (inlierRows t)

def tbl1 : Table :=
  ⟨["price", "qty"],
   [[("price", Value.num 3), ("qty", Value.num 4)],
    [("price", Value.text "oops"), ("qty", Value.num 1)],
    [("price", Value.num 3), ("qty", Value.num 4)]]⟩

def out1 : Table := ⟨["price", "qty"], [[("price", Value.num 3), ("qty", Value.num 4)]]⟩

def rep1 : Report := ⟨3, 0, 1, 0, 1, 1⟩

theorem engine_output_invariants_witness :
    validate_and_repair (some tbl1) = Except.ok (out1, rep1) ∧
    ((∀ r ∈ out1.rows,
        (∃ p : ℚ, getVal r "price" = Value.num p ∧ 0 < p ∧ p ≤ 1000000) ∧
        (∃ q : ℚ, getVal r "qty" = Value.num q ∧ 0 < q ∧ q ≤ 1000000)) ∧
      out1.rows.Nodup) :=
  ⟨by decide, engine_output_invariants tbl1 out1 rep1 (by decide)⟩

/-- Claim C2: a row has its `price` and `qty` exchanged iff both are
numeric (non-null) with `price < 1`, `qty ≥ 100` and `qty > price * 10`;
a `price=0.5, qty=50` row is never swapped while a `price=0.2, qty=200`
row becomes `price=200, qty=0.2`; and the report's `swapped` field is
exactly the number of rows satisfying the mask. -/
theorem swap_heuristic_characterization :
    (∀ (r : Row) (p q : ℚ),
      getVal r "price" = Value.num p → getVal r "qty" = Value.num q →
      getVal (swapStep r) "price" =
        Value.num (if p < 1 ∧ 100 ≤ q ∧ p * 10 < q then q else p) ∧
      getVal (swapStep r) "qty" =
        Value.num (if p < 1 ∧ 100 ≤ q ∧ p * 10 < q then p else q) ∧
      (¬(p < 1 ∧ 100 ≤ q ∧ p * 10 < q) → swapStep r = r)) ∧
    (∀ r : Row,
      ((∀ p : ℚ, getVal r "price" ≠ Value.num p) ∨
       (∀ q : ℚ, getVal r "qty" ≠ Value.num q)) → swapStep r = r) ∧
    swapStep [("price", Value.num (1/2)), ("qty", Value.num 50)] =
      [("price", Value.num (1/2)), ("qty", Value.num 50)] ∧
    swapStep [("price", Value.num (1/5)), ("qty", Value.num 200)] =
      [("price", Value.num 200), ("qty", Value.num (1/5))] ∧
    (∀ (t c : Table) (rep : Report),
      validate_and_repair (some t) = Except.ok (c, rep) →
      rep.swapped = ((coercedRows t).filter swapCond).length) := by
  refine ⟨?_, ?_, ?_, ?_, ?_⟩
  case refine_3 =>
    apply swapStep_of_not_cond
    have h1 : getVal [("price", Value.num (1/2)), ("qty", Value.num 50)] "price" =
        Value.num (1/2) := rfl
    have h2 : getVal [("price", Value.num (1/2)), ("qty", Value.num 50)] "qty" =
        Value.num 50 := rfl
    rw [swapCond_num h1 h2]
    apply decide_eq_false
    intro hcon
    have := hcon.2.1
    norm_num at this
  case refine_4 =>
    have h1 : getVal [("price", Value.num (1/5)), ("qty", Value.num 200)] "price" =
        Value.num (1/5) := rfl
    have h2 : getVal [("price", Value.num (1/5)), ("qty", Value.num 200)] "qty" =
        Value.num 200 := rfl
    have hc : swapCond [("price", Value.num (1/5)), ("qty", Value.num 200)] = true := by
      rw [swapCond_num h1 h2]
      apply decide_eq_true
      norm_num
    unfold swapStep
    rw [if_pos hc]
    rfl
  · intro r p q hp hq
    by_cases hcond : p < 1 ∧ 100 ≤ q ∧ p * 10 < q
    · have hc : swapCond r = true := by
        rw [swapCond_num hp hq]; exact decide_eq_true hcond
      obtain ⟨h1, h2⟩ := getVal_swapStep_of_cond hp hq hc
      exact ⟨by rw [h1, if_pos hcond], by rw [h2, if_pos hcond], fun hcon => absurd hcond hcon⟩
    · have hc : swapCond r = false := by
        rw [swapCond_num hp hq]; exact decide_eq_false hcond
      rw [swapStep_of_not_cond hc]
      exact ⟨by rw [hp, if_neg hcond], by rw [hq, if_neg hcond], fun _ => rfl⟩
  · intro r h
    apply swapStep_of_not_cond
    unfold swapCond
    rcases h with h | h
    · cases hgp : getVal r "price" with
      | num x => exact absurd hgp (h x)
      | text s => simp [hgp]
      | null => simp [hgp]
    · cases hgq : getVal r "qty" with
      | num x => exact absurd hgq (h x)
      | text s => cases hgp : getVal r "price" <;> simp [hgp, hgq]
      | null => cases hgp : getVal r "price" <;> simp [hgp, hgq]
  · intro t c rep h
    obtain ⟨hp, hc, hrep⟩ := remove_invalid_rows_ok_elim h
    rw [hrep]
    rfl

theorem swap_heuristic_characterization_witness :
    (getVal [("price", Value.num 3), ("qty", Value.num 400)] "price" = Value.num 3 ∧
     getVal [("price", Value.num 3), ("qty", Value.num 400)] "qty" = Value.num 400) ∧
    getVal (swapStep [("price", Value.num 3), ("qty", Value.num 400)]) "price" =
      Value.num (if (3 : ℚ) < 1 ∧ (100 : ℚ) ≤ 400 ∧ (3 : ℚ) * 10 < 400 then (400 : ℚ) else 3) :=
  ⟨⟨by decide, by decide⟩,
    (swap_heuristic_characterization.1 _ 3 400 (by decide) (by decide)).1⟩

theorem mem_swappedRows {t : Table} {r : Row} (h : r ∈ swappedRows t) :
    ∃ r0 ∈ t.rows, r = swapStep (coerceRow r0) := by
  unfold swappedRows coercedRows at h
  rw [List.map_map] at h
  obtain ⟨r0, hr0, heq⟩ := List.mem_map.mp h
  exact ⟨r0, hr0, heq.symm⟩

theorem finalRows_fixed {t : Table} {r : Row} (h : r ∈ finalRows t) :
    coerceRow r = r ∧ swapCond r = false ∧ posCond r = true ∧ outlierCond r = false := by
  obtain ⟨hsw, hpos, hout⟩ := mem_finalRows h
  obtain ⟨r0, _, heq⟩ := mem_swappedRows hsw
  subst heq
  exact ⟨coerceRow_swapStep (coerceRow_coerceRow r0), swapCond_swapStep _, hpos, hout⟩

/-- Claim C3: the engine is idempotent — run on its own clean output it
returns that output unchanged, with no further swaps and no further
removals of any kind. -/
theorem engine_idempotent (t c : Table) (rep : Report)
    (h : validate_and_repair (some t) = Except.ok (c, rep)) :
    validate_and_repair (some c) =
      Except.ok (c, ⟨c.rows.length, 0, 0, 0, 0, c.rows.length⟩) := by
  obtain ⟨hp, hc, hrep⟩ := remove_invalid_rows_ok_elim h
  have hcols : c.cols = t.cols := by rw [hc]; rfl
  have hrows : c.rows = finalRows t := by rw [hc]; rfl
  have hfix : ∀ r ∈ c.rows,
      coerceRow r = r ∧ swapCond r = false ∧ posCond r = true ∧ outlierCond r = false :=
    fun r hr => finalRows_fixed (hrows ▸ hr)
  have hnodup : c.rows.Nodup := by
    rw [hrows]; exact nodup_dedupAux [] (inlierRows t)
  have hpc : "price" ∈ c.cols ∧ "qty" ∈ c.cols := by rw [hcols]; exact hp
  have hred : remove_invalid_rows (some c) =
      if "price" ∈ c.cols ∧ "qty" ∈ c.cols then .ok (cleanTable c)
      else .error .schemaError := rfl
  have e1 : coercedRows c = c.rows := map_eq_self_of (fun r hr => (hfix r hr).1)
  have e2 : swappedRows c = c.rows := by
    unfold swappedRows
    rw [e1]
    exact map_eq_self_of (fun r hr => swapStep_of_not_cond (hfix r hr).2.1)
  have e3 : positiveRows c = c.rows := by
    unfold positiveRows
    rw [e2]
    exact List.filter_eq_self.mpr (fun r hr => (hfix r hr).2.2.1)
  have e4 : inlierRows c = c.rows := by
    unfold inlierRows
    rw [e3]
    exact List.filter_eq_self.mpr (fun r hr => by simp [(hfix r hr).2.2.2])
  have e5 : finalRows c = c.rows := by
    unfold finalRows
    rw [e4]
    exact dropDuplicates_of_nodup hnodup
  have s1 : (coercedRows c).filter swapCond = [] := by
    rw [e1]
    exact List.filter_eq_nil_iff.mpr (fun r hr => by simp [(hfix r hr).2.1])
  have s2 : (swappedRows c).filter (fun r => ! posCond r) = [] := by
    rw [e2]
    exact List.filter_eq_nil_iff.mpr (fun r hr => by simp [(hfix r hr).2.2.1])
  have s3 : (positiveRows c).filter outlierCond = [] := by
    rw [e3]
    exact List.filter_eq_nil_iff.mpr (fun r hr => by simp [(hfix r hr).2.2.2])
  show validate_and_repair (some c) = _
  rw [validate_and_repair, hred, if_pos hpc]
  unfold cleanTable
  rw [e4, e5, s1, s2, s3]
  simp only [List.length_nil, Nat.sub_self]

theorem engine_idempotent_witness :
    validate_and_repair (some tbl1) = Except.ok (out1, rep1) ∧
    validate_and_repair (some out1) = Except.ok (out1, ⟨1, 0, 0, 0, 0, 1⟩) :=
  ⟨by decide, engine_idempotent tbl1 out1 rep1 (by decide)⟩

/-- Claim C4: the engine's counts satisfy
`initial_count - final_count =
 removed_missing_or_nonpositive + removed_outliers + duplicates_removed`,
and each count is exactly the number of rows dropped at its named step
(positivity filter after the swap, outlier filter, duplicate elimination),
with no row counted twice. -/
theorem count_accounting (t c : Table) (rep : Report)
    (h : validate_and_repair (some t) = Except.ok (c, rep)) :
    rep.initial_count = t.rows.length ∧
    rep.final_count = c.rows.length ∧
    rep.removed_missing_or_nonpositive =
      (swappedRows t).length - (positiveRows t).length ∧
    rep.removed_outliers = (positiveRows t).length - (inlierRows t).length ∧
    rep.duplicates_removed = (inlierRows t).length - (finalRows t).length ∧
    rep.final_count +
      (rep.removed_missing_or_nonpositive + rep.removed_outliers +
        rep.duplicates_removed) = rep.initial_count ∧
    rep.initial_count - rep.final_count =
      rep.removed_missing_or_nonpositive + rep.removed_outliers +
        rep.duplicates_removed := by
  obtain ⟨hp, hc, hrep⟩ := remove_invalid_rows_ok_elim h
  have h1 : rep.initial_count = t.rows.length := by rw [hrep]; rfl
  have h2 : rep.final_count = (finalRows t).length := by rw [hrep]; rfl
  have hcr : c.rows = finalRows t := by rw [hc]; rfl
  have h3 : rep.removed_missing_or_nonpositive =
      ((swappedRows t).filter (fun r => ! posCond r)).length := by rw [hrep]; rfl
  have h4 : rep.removed_outliers = ((positiveRows t).filter outlierCond).length := by
    rw [hrep]; rfl
  have h5 : rep.duplicates_removed = (inlierRows t).length - (finalRows t).length := by
    rw [hrep]; rfl
  have f1 := length_filter_not (swappedRows t) posCond
  have hposdef : positiveRows t = (swappedRows t).filter posCond := rfl
  rw [← hposdef] at f1
  have f2 := length_filter_not (positiveRows t) outlierCond
  have hinldef : inlierRows t = (positiveRows t).filter (fun r => ! outlierCond r) := rfl
  rw [← hinldef] at f2
  have f3 : (finalRows t).length ≤ (inlierRows t).length :=
    length_dedupAux_le [] (inlierRows t)
  have len2 : (swappedRows t).length = t.rows.length := by
    unfold swappedRows coercedRows
    rw [List.length_map, List.length_map]
  exact ⟨h1, by rw [h2, hcr], by omega, by omega, h5, by omega, by omega⟩

theorem count_accounting_witness :
    validate_and_repair (some tbl1) = Except.ok (out1, rep1) ∧
    rep1.initial_count - rep1.final_count =
      rep1.removed_missing_or_nonpositive + rep1.removed_outliers +
        rep1.duplicates_removed :=
  ⟨by decide, (count_accounting tbl1 out1 rep1 (by decide)).2.2.2.2.2.2⟩

/-- Claim C5, counterexample: on a run with no outliers the engine's
report (its prints) carries no `removed_outliers` field at all — the
summary line of lines 173-177 omits it and the message of line 165 is
printed only when the count is non-zero — so the report does not contain
the six claimed fields. -/
theorem printed_report_counterexample :
    validate_and_repair (some tbl1) = Except.ok (out1, rep1) ∧
    ¬ ("removed_outliers" ∈ (printedReport rep1).map Prod.fst) :=
  ⟨by decide, by decide⟩

/-- Claim C5 (amended): every successful run's report carries the five
fields `initial_count`, `swapped`, `removed_missing_or_nonpositive`,
`duplicates_removed` and `final_count` with their named counts, and
carries `removed_outliers` exactly in the runs where that count is
non-zero. -/
theorem printed_report_fields (t c : Table) (rep : Report)
    (h : validate_and_repair (some t) = Except.ok (c, rep)) :
    ("initial_count", rep.initial_count) ∈ printedReport rep ∧
    ("swapped", rep.swapped) ∈ printedReport rep ∧
    ("removed_missing_or_nonpositive", rep.removed_missing_or_nonpositive) ∈
      printedReport rep ∧
    ("duplicates_removed", rep.duplicates_removed) ∈ printedReport rep ∧
    ("final_count", rep.final_count) ∈ printedReport rep ∧
    (rep.removed_outliers ≠ 0 →
      ("removed_outliers", rep.removed_outliers) ∈ printedReport rep) := by
  have hmem : ∀ x : String × Nat,
      x ∈ [("initial_count", rep.initial_count), ("swapped", rep.swapped),
           ("removed_missing_or_nonpositive", rep.removed_missing_or_nonpositive),
           ("duplicates_removed", rep.duplicates_removed),
           ("final_count", rep.final_count)] → x ∈ printedReport rep := by
    intro x hx
    unfold printedReport
    exact List.mem_append_right _ hx
  refine ⟨hmem _ (by simp), hmem _ (by simp), hmem _ (by simp),
    hmem _ (by simp), hmem _ (by simp), ?_⟩
  intro h0
  have hin : ("removed_outliers", rep.removed_outliers) ∈
      (if rep.removed_outliers ≠ 0 then [("removed_outliers", rep.removed_outliers)]
       else []) := by
    rw [if_pos h0]
    exact List.mem_cons_self _ _
  unfold printedReport
  exact List.mem_append_left _ (List.mem_append_right _ hin)

def tbl5 : Table := ⟨["price", "qty"], [[("price", Value.num 2000000), ("qty", Value.num 1)]]⟩

def out5 : Table := ⟨["price", "qty"], []⟩

def rep5 : Report := ⟨1, 0, 0, 1, 0, 0⟩

theorem printed_report_fields_witness :
    validate_and_repair (some tbl5) = Except.ok (out5, rep5) ∧
    rep5.removed_outliers ≠ 0 ∧
    ("removed_outliers", rep5.removed_outliers) ∈ printedReport rep5 :=
  ⟨by decide, by decide,
    (printed_report_fields tbl5 out5 rep5 (by decide)).2.2.2.2.2 (by decide)⟩

/-- Claim C6: the engine fails with the schema error exactly when `price`
or `qty` is absent, fails with the invalid-input error exactly when the
input is not a table at all, succeeds in every other case, and malformed
cell values never fail anything: unparseable text degrades to null and
every surviving row passed the filters. -/
theorem error_conditions :
    (∀ input : Option Table,
      (validate_and_repair input = Except.error CleanError.invalidInput ↔
        input = none) ∧
      (validate_and_repair input = Except.error CleanError.schemaError ↔
        ∃ t, input = some t ∧ ¬("price" ∈ t.cols ∧ "qty" ∈ t.cols))) ∧
    (∀ t : Table, "price" ∈ t.cols → "qty" ∈ t.cols →
      validate_and_repair (some t) = Except.ok (cleanTable t)) ∧
    (∀ s : String, parseNum s = none → coerceCell (Value.text s) = Value.null) ∧
    (∀ t : Table, ∀ r ∈ (cleanTable t).1.rows,
      posCond r = true ∧ outlierCond r = false) := by
  have hred : ∀ t : Table, validate_and_repair (some t) =
      if "price" ∈ t.cols ∧ "qty" ∈ t.cols then .ok (cleanTable t)
      else .error .schemaError := fun t => rfl
  refine ⟨?_, ?_, ?_, ?_⟩
  · intro input
    cases input with
    | none =>
        refine ⟨by simp [validate_and_repair, remove_invalid_rows], ?_, ?_⟩
        · intro h
          simp [validate_and_repair, remove_invalid_rows] at h
        · rintro ⟨t, ht, -⟩
          simp at ht
    | some t =>
        by_cases hp : "price" ∈ t.cols ∧ "qty" ∈ t.cols
        · rw [hred t, if_pos hp]
          refine ⟨by simp, by simp, ?_⟩
          rintro ⟨t', ht', hnp⟩
          rw [Option.some.inj ht'] at hp
          exact absurd hp hnp
        · rw [hred t, if_neg hp]
          exact ⟨by simp, fun _ => ⟨t, rfl, hp⟩, fun _ => rfl⟩
  · intro t h1 h2
    rw [hred t, if_pos ⟨h1, h2⟩]
  · intro s hs
    simp [coerceCell, hs]
  · intro t r hr
    have hr' : r ∈ finalRows t := hr
    obtain ⟨-, hpos, hout⟩ := mem_finalRows hr'
    exact ⟨hpos, hout⟩

theorem error_conditions_witness :
    ("price" ∈ (⟨["price", "qty"], []⟩ : Table).cols ∧
     "qty" ∈ (⟨["price", "qty"], []⟩ : Table).cols) ∧
    validate_and_repair (some ⟨["price", "qty"], []⟩) =
      Except.ok (cleanTable ⟨["price", "qty"], []⟩) :=
  ⟨⟨by decide, by decide⟩, error_conditions.2.1 _ (by decide) (by decide)⟩

/-- Claim C7: `fix_numeric_values` is total and row-preserving — it maps
each row cell-for-cell (removing none), on `price`/`qty` cells it turns
every unparseable text (the `"-"` sentinel included) into null and every
parseable text into its number, passes numbers and nulls through, and
leaves every other column's cells untouched. -/
theorem coercion_total_row_preserving (t : Table) :
    (fix_numeric_values t).cols = t.cols ∧
    (fix_numeric_values t).rows.length = t.rows.length ∧
    (fix_numeric_values t).rows =
      t.rows.map (fun r => r.map (fun cv => (cv.1, fixCell cv.1 cv.2))) ∧
    (∀ (c : String) (v : Value), ¬(c = "price" ∨ c = "qty") → fixCell c v = v) ∧
    (∀ c : String, (c = "price" ∨ c = "qty") →
      fixCell c (Value.text "-") = Value.null ∧
      (∀ s, parseNum s = none → fixCell c (Value.text s) = Value.null) ∧
      (∀ s x, parseNum s = some x → fixCell c (Value.text s) = Value.num x) ∧
      (∀ x : ℚ, fixCell c (Value.num x) = Value.num x) ∧
      fixCell c Value.null = Value.null) := by
  refine ⟨rfl, ?_, rfl, ?_, ?_⟩
  · show (t.rows.map _).length = t.rows.length
    rw [List.length_map]
  · intro c v h
    push_neg at h
    simp [fixCell, pqCol, h.1, h.2]
  · intro c h
    have hpq : pqCol c = true := by
      rcases h with h | h <;> simp [pqCol, h]
    refine ⟨?_, ?_, ?_, ?_, ?_⟩
    · simp [fixCell, hpq, replaceDash, coerceCell]
    · intro s hs
      by_cases hdash : s = "-"
      · simp [fixCell, hpq, replaceDash, hdash, coerceCell]
      · simp [fixCell, hpq, replaceDash, hdash, coerceCell, hs]
    · intro s x hs
      have hdash : ¬ s = "-" := by
        intro hh
        rw [hh] at hs
        have hnone : parseNum "-" = none := rfl
        rw [hnone] at hs
        cases hs
      simp [fixCell, hpq, replaceDash, hdash, coerceCell, hs]
    · intro x
      simp [fixCell, hpq, replaceDash, coerceCell]
    · simp [fixCell, hpq, replaceDash, coerceCell]

theorem coercion_total_row_preserving_witness :
    ("price" = "price" ∨ "price" = "qty") ∧
    fixCell "price" (Value.text "-") = Value.null ∧
    fix_numeric_values (⟨["price", "qty"],
      [[("price", Value.text "-"), ("qty", Value.num 2)]]⟩ : Table) =
      ⟨["price", "qty"], [[("price", Value.null), ("qty", Value.num 2)]]⟩ :=
  ⟨Or.inl rfl,
   ((coercion_total_row_preserving ⟨[], []⟩).2.2.2.2 "price" (Or.inl rfl)).1,
   by decide⟩

theorem isNullV_false_iff {v : Value} : isNullV v = false ↔ v ≠ Value.null := by
  cases v <;> simp [isNullV]

/-- Claim C8: `handle_missing_values` removes exactly the rows holding a
null in the `price` column, the `qty` column, or — when the table has
one — the `date_sold` column; a null anywhere else is kept, and a null
`date_sold` drops the row regardless of its `price`/`qty`. -/
theorem missing_value_filter (t : Table) (r : Row) (hr : r ∈ t.rows) :
    r ∈ (handle_missing_values t).rows ↔
      ¬(("price" ∈ t.cols ∧ getVal r "price" = Value.null) ∨
        ("qty" ∈ t.cols ∧ getVal r "qty" = Value.null) ∨
        ("date_sold" ∈ t.cols ∧ getVal r "date_sold" = Value.null)) := by
  have hrw : (handle_missing_values t).rows = t.rows.filter
      (fun r => ((["price", "qty", "date_sold"]).filter
        (fun c => decide (c ∈ t.cols))).all (fun c => ! isNullV (getVal r c))) := rfl
  rw [hrw, List.mem_filter]
  simp only [hr, true_and]
  rw [List.all_eq_true]
  constructor
  · intro hall
    push_neg
    have key : ∀ c : String, c ∈ (["price", "qty", "date_sold"] : List String) →
        c ∈ t.cols → getVal r c ≠ Value.null := by
      intro c hc3 hcol
      have hm : c ∈ (["price", "qty", "date_sold"]).filter
          (fun c => decide (c ∈ t.cols)) :=
        List.mem_filter.mpr ⟨hc3, by simpa using hcol⟩
      have hb := hall _ hm
      rw [Bool.not_eq_true'] at hb
      exact isNullV_false_iff.mp hb
    exact ⟨key "price" (by simp), key "qty" (by simp), key "date_sold" (by simp)⟩
  · intro hnot c hc
    obtain ⟨hc3, hcol⟩ := List.mem_filter.mp hc
    rw [decide_eq_true_eq] at hcol
    push_neg at hnot
    rw [Bool.not_eq_true', isNullV_false_iff]
    have hcases : c = "price" ∨ c = "qty" ∨ c = "date_sold" := by simpa using hc3
    rcases hcases with h | h | h <;> subst h
    · exact hnot.1 hcol
    · exact hnot.2.1 hcol
    · exact hnot.2.2 hcol

def row8 : Row := [("price", Value.num 3), ("qty", Value.num 4), ("date_sold", Value.null)]

def tbl8 : Table := ⟨["price", "qty", "date_sold"], [row8]⟩

theorem missing_value_filter_witness :
    row8 ∈ tbl8.rows ∧
    (row8 ∈ (handle_missing_values tbl8).rows ↔
      ¬(("price" ∈ tbl8.cols ∧ getVal row8 "price" = Value.null) ∨
        ("qty" ∈ tbl8.cols ∧ getVal row8 "qty" = Value.null) ∨
        ("date_sold" ∈ tbl8.cols ∧ getVal row8 "date_sold" = Value.null))) :=
  ⟨by decide, missing_value_filter tbl8 row8 (by decide)⟩

theorem mem_dedupAux_of_mem {seen l : List Row} {r : Row}
    (h : r ∈ l) (hs : r ∉ seen) : r ∈ dedupAux seen l := by
  induction l generalizing seen with
  | nil => cases h
  | cons a rs ih =>
      by_cases hra : r = a
      · subst hra
        rw [dedupAux, if_neg hs]
        exact List.mem_cons_self r _
      · have hmem : r ∈ rs := by
          rcases List.mem_cons.mp h with h' | h'
          · exact absurd h' hra
          · exact h'
        by_cases ha : a ∈ seen
        · rw [dedupAux, if_pos ha]
          exact ih hmem hs
        · rw [dedupAux, if_neg ha]
          refine List.mem_cons_of_mem _ (ih hmem ?_)
          simp only [List.mem_cons]
          rintro (h' | h')
          · exact hra h'
          · exact hs h'

/-- Claim C9: the engine's output rows form a subsequence of the
(coerced, swap-repaired) input rows — rows are only deleted, never
reordered or inserted — every surviving row value is kept exactly once,
and duplicate elimination keeps the first occurrence: it keeps the head
of the list and recurses after erasing the head's later duplicates. -/
theorem output_subsequence (t c : Table) (rep : Report)
    (h : validate_and_repair (some t) = Except.ok (c, rep)) :
    List.Sublist c.rows (swappedRows t) ∧
    (∀ r : Row, r ∈ c.rows ↔ r ∈ inlierRows t) ∧
    c.rows.Nodup ∧
    dropDuplicates ([] : List Row) = [] ∧
    (∀ (a : Row) (l : List Row),
      dropDuplicates (a :: l) =
        a :: dropDuplicates (l.filter (fun x => decide (x ≠ a)))) := by
  obtain ⟨hp, hc, hrep⟩ := remove_invalid_rows_ok_elim h
  have hrows : c.rows = finalRows t := by rw [hc]; rfl
  refine ⟨?_, ?_, ?_, rfl, dropDuplicates_cons⟩
  · rw [hrows]
    exact ((sublist_dedupAux [] _).trans (List.filter_sublist _)).trans
      (List.filter_sublist _)
  · intro r
    rw [hrows]
    exact ⟨mem_of_mem_dedupAux, fun hr => mem_dedupAux_of_mem hr (by simp)⟩
  · rw [hrows]
    exact nodup_dedupAux [] _

theorem output_subsequence_witness :
    validate_and_repair (some tbl1) = Except.ok (out1, rep1) ∧
    List.Sublist out1.rows (swappedRows tbl1) :=
  ⟨by decide, (output_subsequence tbl1 out1 rep1 (by decide)).1⟩

theorem offPQAgrees_refl (l : Row) : List.Forall₂ offPQAgrees l l :=
  List.forall₂_same.mpr (fun x _ => ⟨rfl, fun _ => rfl⟩)

theorem offPQAgrees_trans {l₁ l₂ l₃ : Row} (h1 : List.Forall₂ offPQAgrees l₁ l₂)
    (h2 : List.Forall₂ offPQAgrees l₂ l₃) : List.Forall₂ offPQAgrees l₁ l₃ := by
  induction h1 generalizing l₃ with
  | nil => cases h2; exact .nil
  | cons hab hrest ih =>
      cases h2 with
      | cons hbc hrest2 =>
          refine .cons ⟨hab.1.trans hbc.1, fun hpq => ?_⟩ (ih hrest2)
          exact (hab.2 hpq).trans (hbc.2 (hab.1 ▸ hpq))

theorem frame_coerceRow (r : Row) : List.Forall₂ offPQAgrees (coerceRow r) r := by
  rw [coerceRow, List.forall₂_map_left_iff]
  refine List.forall₂_same.mpr (fun cv _ => ?_)
  constructor
  · exact fst_coerceRowCell cv
  · intro hpq
    rw [fst_coerceRowCell] at hpq
    simp [hpq]

theorem frame_setVal (r : Row) (c : String) (v : Value) (hc : pqCol c = true) :
    List.Forall₂ offPQAgrees (setVal r c v) r := by
  induction r with
  | nil => exact .nil
  | cons cv rest ih =>
      by_cases h : cv.1 = c
      · rw [setVal, if_pos h]
        refine .cons ⟨h.symm, fun hpq => ?_⟩ (offPQAgrees_refl rest)
        rw [hc] at hpq
        cases hpq
      · rw [setVal, if_neg h]
        exact .cons ⟨rfl, fun _ => rfl⟩ ih

theorem frame_swapStep (r : Row) : List.Forall₂ offPQAgrees (swapStep r) r := by
  cases h : swapCond r with
  | false => rw [swapStep_of_not_cond h]; exact offPQAgrees_refl r
  | true =>
      rw [swapStep, if_pos h]
      exact offPQAgrees_trans
        (frame_setVal _ "qty" _ (by decide))
        (frame_setVal _ "price" _ (by decide))

/-- Claim C10 (frame property): every retained output row comes from an
input row and agrees with it on every cell outside the `price`/`qty`
columns — the swap repair is the only value-modifying step and it touches
only those two columns; all other steps delete whole rows. -/
theorem frame_property (t c : Table) (rep : Report)
    (h : validate_and_repair (some t) = Except.ok (c, rep)) :
    ∀ r ∈ c.rows, ∃ r0 ∈ t.rows,
      r = swapStep (coerceRow r0) ∧ List.Forall₂ offPQAgrees r r0 := by
  obtain ⟨hp, hc, hrep⟩ := remove_invalid_rows_ok_elim h
  have hrows : c.rows = finalRows t := by rw [hc]; rfl
  intro r hr
  rw [hrows] at hr
  obtain ⟨hsw, -, -⟩ := mem_finalRows hr
  obtain ⟨r0, hr0, heq⟩ := mem_swappedRows hsw
  refine ⟨r0, hr0, heq, ?_⟩
  rw [heq]
  exact offPQAgrees_trans (frame_swapStep (coerceRow r0)) (frame_coerceRow r0)

theorem frame_property_witness :
    validate_and_repair (some tbl1) = Except.ok (out1, rep1) ∧
    (∀ r ∈ out1.rows, ∃ r0 ∈ tbl1.rows,
      r = swapStep (coerceRow r0) ∧ List.Forall₂ offPQAgrees r r0) :=
  ⟨by decide, frame_property tbl1 out1 rep1 (by decide)⟩

end DataCleaning
